import Mathlib

/-!
# RepCXL: shallow embedding and verification of the spec's claims

This file embeds the algorithmic core of the RepCXL replication engine
(the MONSTER write/read state machines, the OWCC write-conflict checker,
the object-index allocator, the safe memory I/O fan-out, the round
scheduler, and the client object handle) as executable Lean definitions,
and proves or refutes the specification's claims about them.

Rust `u64`/`usize` values are modelled as `Nat` (none of the verified
operations can overflow on the inputs the claims quantify over), Rust
`Option`/`Result` as `Option`/`Except`, and a Rust panic as an explicit
error/`none` outcome of the embedded function.
-/

namespace RepCXL

/-- Maximum number of processes (`MAX_PROCESSES` in `lib.rs`). -/
def MAX_PROCESSES : Nat := 128

/-- Maximum number of objects in the index (`MAX_OBJECTS` in `lib.rs`). -/
def MAX_OBJECTS : Nat := 32

/-- Modelled from the spec: the write identifier `Wid` is referenced by the
source (`crate::Wid` in `monster.rs`) but its definition is not under `src/`.
Per spec section 3 it is the pair `(round_number, process_id)`. -/
structure Wid where
  round_num : Nat
  process_id : Nat
deriving DecidableEq, Repr

/-- Modelled from the spec: the strict order on `Wid`s. Spec section 3:
ordering is primarily by increasing `round_number`; on a tie the *lower*
`process_id` is the *greater* Wid. -/
def Wid.lt (x y : Wid) : Bool :=
  decide (x.round_num < y.round_num) ||
    (decide (x.round_num = y.round_num) && decide (y.process_id < x.process_id))

/-- The non-strict companion order on `Wid`s, used to state maximality. -/
def Wid.le (x y : Wid) : Prop :=
  x.round_num < y.round_num ∨ (x.round_num = y.round_num ∧ y.process_id ≤ x.process_id)

theorem Wid.le_refl (x : Wid) : Wid.le x x := Or.inr ⟨rfl, Nat.le_refl _⟩

theorem Wid.le_trans {x y z : Wid} (h1 : Wid.le x y) (h2 : Wid.le y z) : Wid.le x z := by
  rcases h1 with h1 | ⟨h1a, h1b⟩ <;> rcases h2 with h2 | ⟨h2a, h2b⟩ <;>
    simp only [Wid.le] <;> omega

theorem Wid.le_of_lt {x y : Wid} (h : Wid.lt x y = true) : Wid.le x y := by
  simp only [Wid.lt, Bool.or_eq_true, Bool.and_eq_true, decide_eq_true_eq] at h
  rcases h with h | ⟨h1, h2⟩
  · exact Or.inl h
  · exact Or.inr ⟨h1, Nat.le_of_lt h2⟩

theorem Wid.le_of_not_lt {x y : Wid} (h : Wid.lt x y = false) : Wid.le y x := by
  simp only [Wid.lt, Bool.or_eq_false_iff, Bool.and_eq_false_iff, decide_eq_false_iff_not] at h
  obtain ⟨h1, h2⟩ := h
  rcases Nat.lt_trichotomy x.round_num y.round_num with hr | hr | hr
  · exact absurd hr h1
  · rcases h2 with h2 | h2
    · exact absurd hr h2
    · exact Or.inr ⟨hr.symm, Nat.le_of_not_lt h2⟩
  · exact Or.inl hr

/-- Entry type `ObjectMemoryEntry<T>`: the fixed-layout record `{ wid, value }` stored in
the object area of each memory node. Referenced by the source
(`crate::ObjectMemoryEntry`); layout per spec section 3. -/
structure ObjectMemoryEntry (T : Type) where
  wid : Wid
  value : T
deriving DecidableEq, Repr

/-- Reply type `ReadReturn<T>`: classification of a read (`ReadSafe` / `ReadDirty`). -/
inductive ReadReturn (T : Type) where
  | ReadSafe (v : T)
  | ReadDirty (v : T)
deriving DecidableEq, Repr

/-! ## OWCC: the object write-conflict checker (`src/shmem/wcc.rs`, `ObjectWCC`) -/

/-- Entry of the `ObjectWCC` table: `{ oid, round }` (`ObjectWCCEntry`). -/
structure ObjectWCCEntry where
  oid : Nat
  round : Nat
deriving DecidableEq, Repr

/-- The `ObjectWCC` table: one `ObjectWCCEntry` per process id.
`ObjectWCC::new` fills `MAX_PROCESSES` slots with `(0, 0)`. -/
structure ObjectWCC where
  p_round : List ObjectWCCEntry
deriving DecidableEq, Repr

/-- Constructor `ObjectWCC::new()`. -/
def ObjectWCC.new : ObjectWCC := ⟨List.replicate MAX_PROCESSES ⟨0, 0⟩⟩

/-- Operation `ObjectWCC::write(oid, round, pid)`: stores `{oid, round}` at slot `pid`;
returns without writing when `pid >= MAX_PROCESSES`. -/
def ObjectWCC.write (t : ObjectWCC) (oid round pid : Nat) : ObjectWCC :=
  if MAX_PROCESSES ≤ pid then t else ⟨t.p_round.set pid ⟨oid, round⟩⟩

/-- The slot scan inside `ObjectWCC::is_last`: walks the slots carrying the
running slot index `i`, returning `false` on the first slot (same oid) whose
round lies strictly between `round_in` and `current_round`, or whose round
equals `round_in` with slot index below `pid_in`. -/
def isLastScan (oid_in cur round_in pid_in : Nat) : Nat → List ObjectWCCEntry → Bool
  | _, [] => true
  | i, e :: rest =>
    if e.oid ≠ oid_in then isLastScan oid_in cur round_in pid_in (i + 1) rest
    else if cur > e.round ∧ e.round > round_in then false
    else if e.round = round_in ∧ i < pid_in then false
    else isLastScan oid_in cur round_in pid_in (i + 1) rest

/-- Operation `ObjectWCC::is_last(oid_in, current_round, round_in, pid_in)`: returns
`false` immediately when `pid_in > MAX_PROCESSES`, otherwise scans all slots. -/
def ObjectWCC.is_last (t : ObjectWCC) (oid_in cur round_in pid_in : Nat) : Bool :=
  if MAX_PROCESSES < pid_in then false
  else isLastScan oid_in cur round_in pid_in 0 t.p_round

/-- Characterization of the slot scan: it returns `false` exactly when some
slot (at running index `k + j`) stores the scanned object id together with a
round strictly between `round_in` and `cur`, or the round `round_in` with a
slot index below `pid_in`. -/
theorem isLastScan_eq_false_iff (oid cur rin pid : Nat) :
    ∀ (l : List ObjectWCCEntry) (k : Nat),
      isLastScan oid cur rin pid k l = false ↔
        ∃ j e, l.get? j = some e ∧ e.oid = oid ∧
          ((rin < e.round ∧ e.round < cur) ∨ (e.round = rin ∧ k + j < pid))
  | [], k => by simp [isLastScan]
  | e :: rest, k => by
    have ih := isLastScan_eq_false_iff oid cur rin pid rest (k + 1)
    by_cases h1 : e.oid ≠ oid
    · rw [isLastScan, if_pos h1, ih]
      constructor
      · rintro ⟨j, f, hget, hoid, hc⟩
        refine ⟨j + 1, f, hget, hoid, ?_⟩
        rcases hc with hc | hc
        · exact Or.inl hc
        · exact Or.inr ⟨hc.1, by omega⟩
      · rintro ⟨j, f, hget, hoid, hc⟩
        cases j with
        | zero =>
          rw [List.get?] at hget
          cases hget
          exact absurd hoid h1
        | succ j =>
          refine ⟨j, f, hget, hoid, ?_⟩
          rcases hc with hc | hc
          · exact Or.inl hc
          · exact Or.inr ⟨hc.1, by omega⟩
    · rw [not_not] at h1
      by_cases h2 : cur > e.round ∧ e.round > rin
      · rw [isLastScan, if_neg (by simpa using h1), if_pos h2]
        exact iff_of_true rfl ⟨0, e, rfl, h1, Or.inl ⟨h2.2, h2.1⟩⟩
      · by_cases h3 : e.round = rin ∧ k < pid
        · rw [isLastScan, if_neg (by simpa using h1), if_neg h2, if_pos h3]
          exact iff_of_true rfl ⟨0, e, rfl, h1, Or.inr ⟨h3.1, by omega⟩⟩
        · rw [isLastScan, if_neg (by simpa using h1), if_neg h2, if_neg h3, ih]
          constructor
          · rintro ⟨j, f, hget, hoid, hc⟩
            refine ⟨j + 1, f, hget, hoid, ?_⟩
            rcases hc with hc | hc
            · exact Or.inl hc
            · exact Or.inr ⟨hc.1, by omega⟩
          · rintro ⟨j, f, hget, hoid, hc⟩
            cases j with
            | zero =>
              rw [List.get?] at hget
              cases hget
              rcases hc with hc | hc
              · exact absurd ⟨hc.2, hc.1⟩ h2
              · exact absurd ⟨hc.1, by omega⟩ h3
            | succ j =>
              refine ⟨j, f, hget, hoid, ?_⟩
              rcases hc with hc | hc
              · exact Or.inl hc
              · exact Or.inr ⟨hc.1, by omega⟩

/-- C3 (corrected): `ObjectWCC::is_last(oid, current_round, my_round, my_pid)`
returns `false` exactly when `my_pid` exceeds the `MAX_PROCESSES` validity
bound, or some slot storing `oid` has a round strictly between `my_round` and
`current_round`, or some slot storing `(oid, my_round)` has slot index
strictly below `my_pid`; otherwise it returns `true`. The claim as frozen
omitted the `my_pid > MAX_PROCESSES` early-false guard. -/
theorem claim_C3 (t : ObjectWCC) (oid cur rin pid : Nat) :
    t.is_last oid cur rin pid = false ↔
      (MAX_PROCESSES < pid ∨
        (∃ j e, t.p_round.get? j = some e ∧ e.oid = oid ∧ rin < e.round ∧ e.round < cur) ∨
        (∃ j e, t.p_round.get? j = some e ∧ e.oid = oid ∧ e.round = rin ∧ j < pid)) := by
  rw [ObjectWCC.is_last]
  by_cases hp : MAX_PROCESSES < pid
  · simp [hp]
  · rw [if_neg hp, isLastScan_eq_false_iff]
    constructor
    · rintro ⟨j, e, hget, hoid, hc⟩
      rcases hc with hc | hc
      · exact Or.inr (Or.inl ⟨j, e, hget, hoid, hc⟩)
      · exact Or.inr (Or.inr ⟨j, e, hget, hoid, hc.1, by omega⟩)
    · rintro (h | ⟨j, e, hget, hoid, hc1, hc2⟩ | ⟨j, e, hget, hoid, hc1, hc2⟩)
      · exact absurd h hp
      · exact ⟨j, e, hget, hoid, Or.inl ⟨hc1, hc2⟩⟩
      · exact ⟨j, e, hget, hoid, Or.inr ⟨hc1, by omega⟩⟩

/-- C3 counterexample: on a freshly initialized table, with object id `1`
(matching no slot), `current_round = 5`, `my_round = 3` and
`my_pid = 129 > MAX_PROCESSES`, `is_last` returns `false` although neither of
the two conditions the claim names holds, so the claim's "otherwise it
returns true" fails at this input. -/
theorem claim_C3_counterexample :
    ¬ ((ObjectWCC.new.is_last 1 5 3 129 = false) ↔
        ((∃ j e, ObjectWCC.new.p_round.get? j = some e ∧ e.oid = 1 ∧
            3 < e.round ∧ e.round < 5) ∨
         (∃ j e, ObjectWCC.new.p_round.get? j = some e ∧ e.oid = 1 ∧
            e.round = 3 ∧ j < 129))) := by
  intro h
  have hfalse : ObjectWCC.new.is_last 1 5 3 129 = false := by decide
  have hall : ∀ j e, ObjectWCC.new.p_round.get? j = some e → e = (⟨0, 0⟩ : ObjectWCCEntry) :=
    fun j e hget => List.eq_of_mem_replicate (List.get?_mem hget)
  rcases h.mp hfalse with ⟨j, e, hget, hoid, _⟩ | ⟨j, e, hget, hoid, _⟩ <;>
    · cases hall j e hget
      exact absurd hoid (by decide)

/-! ## MONSTER write state machine (`src/algorithms/monster.rs`, `monster_write`)

One call of `monster_write_step` is one iteration of the `loop` in
`monster_write`: the stop-flag check, the state body, and the final
`wait_next_round` round update. Shared memory (the OWCC table read at the
master node, the outcomes of `mem_writeall` / `mem_readall`, the queue poll
and the timing test against the round boundary) is supplied as an oracle
input, since other processes mutate it between iterations. A `none` result
models the worker leaving its loop (stop flag, disconnected queue, violated
pending-request invariant, or fatal memory error). -/

/-- The six states of the MONSTER write state machine (`MonsterState`). -/
inductive MonsterState where
  | Try
  | Retry
  | Check
  | Replicate
  | Wait
  | PostConflictCheck
deriving DecidableEq, Repr

/-- A queued write request: the object's index entry and the payload
(`WriteRequest<T>`; the ack channel is modelled by the step's `acks` output). -/
structure WriteRequest (T : Type) where
  obj_info_id : Nat
  obj_info_offset : Nat
  data : T
deriving DecidableEq, Repr

/-- Outcome of the non-blocking `try_recv` poll in the `Try` state. -/
inductive RecvOutcome (T : Type) where
  | ok (req : WriteRequest T)
  | empty
  | disconnected
deriving DecidableEq, Repr

/-- The write worker's loop variables in `monster_write`. -/
structure MWState (T : Type) where
  self_id : Nat
  round_num : Nat
  monster_state : MonsterState
  pending_req : Option (WriteRequest T)
  wid : Wid
  oid : Nat
deriving DecidableEq, Repr

/-- The environment of one loop iteration of `monster_write`: the stop flag,
the master-node OWCC table as currently shared, the queue poll outcome, the
`now - round_start < round_time` test, the `mem_writeall` outcome (`some id` =
`MemoryError(id)`), the `mem_readall` outcome, and the round number returned
by `wait_next_round`. -/
structure MonsterInput (T : Type) where
  stop : Bool
  owcc : ObjectWCC
  recv : RecvOutcome T
  onTime : Bool
  writeRes : Option Nat
  readRes : Except Nat (List (ObjectMemoryEntry T))
  nextRound : Nat

/-- Result of one iteration: the new loop variables, the OWCC table after any
`owcc.write` this iteration performed, and the acks sent to the client. -/
structure StepOut (T : Type) where
  state : MWState T
  owcc : ObjectWCC
  acks : List Bool
deriving DecidableEq, Repr

/-- One iteration of the `loop` in `monster_write`. -/
def monster_write_step {T : Type} (s : MWState T) (i : MonsterInput T) :
    Option (StepOut T) :=
  if i.stop then none else
  match s.monster_state with
  | .Try =>
    match i.recv with
    | .ok req =>
      some ⟨{ s with wid := ⟨s.round_num, s.self_id⟩, oid := req.obj_info_id,
                     monster_state := .Check, pending_req := some req,
                     round_num := i.nextRound },
            i.owcc.write req.obj_info_id s.round_num s.self_id, []⟩
    | .empty => some ⟨{ s with round_num := i.nextRound }, i.owcc, []⟩
    | .disconnected => none
  | .Retry =>
    match s.pending_req with
    | none => none
    | some req =>
      some ⟨{ s with wid := ⟨s.round_num, s.self_id⟩, oid := req.obj_info_id,
                     monster_state := .Check, round_num := i.nextRound },
            i.owcc.write req.obj_info_id s.round_num s.self_id, []⟩
  | .Check =>
      let ns : MonsterState :=
        if i.owcc.is_last s.oid s.round_num s.wid.round_num s.wid.process_id then
          if i.onTime then .Replicate else .Check
        else .Wait
      some ⟨{ s with monster_state := ns, round_num := i.nextRound }, i.owcc, []⟩
  | .Replicate =>
    match s.pending_req with
    | none => none
    | some _ =>
      match i.writeRes with
      | some _ => none
      | none =>
        some ⟨{ s with pending_req := none, monster_state := .Try,
                       round_num := i.nextRound }, i.owcc, [true]⟩
  | .Wait =>
      some ⟨{ s with monster_state := .PostConflictCheck, round_num := i.nextRound },
            i.owcc, []⟩
  | .PostConflictCheck =>
    match s.pending_req with
    | none => none
    | some _ =>
      match i.readRes with
      | .error _ => none
      | .ok omes =>
        if omes.any (fun ome => Wid.lt ome.wid s.wid) then
          some ⟨{ s with monster_state := .Retry, round_num := i.nextRound }, i.owcc, []⟩
        else
          some ⟨{ s with pending_req := none, monster_state := .Try,
                         round_num := i.nextRound }, i.owcc, [true]⟩

/-- C1 (confirmed): in `PostConflictCheck` with a pending request and a
successful `mem_readall`, the next state is `Retry` iff some returned entry's
wid is strictly smaller than the worker's current wid; otherwise the worker
sends `ack(true)`, clears the pending request, and moves to `Try`. -/
theorem claim_C1 {T : Type} (s : MWState T) (i : MonsterInput T)
    (req : WriteRequest T) (omes : List (ObjectMemoryEntry T))
    (hstate : s.monster_state = .PostConflictCheck)
    (hpend : s.pending_req = some req)
    (hstop : i.stop = false)
    (hread : i.readRes = .ok omes) :
    ((monster_write_step s i).map (fun o => o.state.monster_state) =
        some .Retry ↔ ∃ e ∈ omes, Wid.lt e.wid s.wid = true) ∧
    ((¬ ∃ e ∈ omes, Wid.lt e.wid s.wid = true) →
      monster_write_step s i =
        some ⟨{ s with pending_req := none, monster_state := .Try,
                       round_num := i.nextRound }, i.owcc, [true]⟩) := by
  rw [monster_write_step, hstate, hstop, hpend, hread]
  simp only [Bool.false_eq_true, if_false]
  by_cases h : omes.any (fun ome => Wid.lt ome.wid s.wid)
  · rw [if_pos h]
    rw [List.any_eq_true] at h
    exact ⟨iff_of_true rfl h, fun hc => absurd h hc⟩
  · rw [if_neg h]
    rw [List.any_eq_true] at h
    refine ⟨iff_of_false (by simp) h, fun _ => rfl⟩

/-- C1 witness: a worker in `PostConflictCheck` with wid `(2, 1)` reading back
an entry with the strictly smaller wid `(1, 0)` moves to `Retry`. -/
theorem claim_C1_witness :
    (monster_write_step
        ⟨1, 3, .PostConflictCheck, some ⟨5, 0, 99⟩, ⟨2, 1⟩, 5⟩
        ⟨false, ObjectWCC.new, .empty, true, none, .ok [⟨⟨1, 0⟩, (4 : Nat)⟩], 4⟩).map
      (fun o => o.state.monster_state) = some .Retry :=
  (claim_C1 _ _ ⟨5, 0, 99⟩ [⟨⟨1, 0⟩, (4 : Nat)⟩] rfl rfl rfl rfl).1.mpr
    ⟨⟨⟨1, 0⟩, 4⟩, by decide, by decide⟩

/-- C2 (confirmed): from the `Check` state, if `owcc.is_last` holds the next
state is `Replicate` when the round body is on time and `Check` when it is
overtime; if `is_last` fails the next state is `Wait`. In particular no step
out of `Check` ever yields `Try` as the next state. -/
theorem claim_C2 {T : Type} (s : MWState T) (i : MonsterInput T)
    (hstate : s.monster_state = .Check) :
    (∀ out, monster_write_step s i = some out → out.state.monster_state ≠ .Try) ∧
    (i.stop = false →
      monster_write_step s i =
        some ⟨{ s with
                  monster_state :=
                    if i.owcc.is_last s.oid s.round_num s.wid.round_num s.wid.process_id then
                      if i.onTime then MonsterState.Replicate else MonsterState.Check
                    else MonsterState.Wait,
                  round_num := i.nextRound }, i.owcc, []⟩) := by
  constructor
  · intro out hout
    rw [monster_write_step, hstate] at hout
    by_cases hstop : i.stop
    · rw [if_pos hstop] at hout; cases hout
    · rw [if_neg hstop] at hout
      cases hout
      by_cases h1 : i.owcc.is_last s.oid s.round_num s.wid.round_num s.wid.process_id
      · by_cases h2 : i.onTime <;> simp [h1, h2]
      · simp [h1]
  · intro hstop
    rw [monster_write_step, hstate, hstop]
    rfl

set_option maxRecDepth 4096 in
/-- C2 witness: a concrete `Check` step on a fresh OWCC table in which the
worker is the last writer and on time, yielding `Replicate`. -/
theorem claim_C2_witness :
    monster_write_step (T := Nat) ⟨0, 1, .Check, none, ⟨1, 0⟩, 0⟩
        ⟨false, ObjectWCC.new, .empty, true, none, .ok [], 2⟩ =
      some ⟨⟨0, 2, .Replicate, none, ⟨1, 0⟩, 0⟩, ObjectWCC.new, []⟩ := by
  have h := (claim_C2 (T := Nat) ⟨0, 1, .Check, none, ⟨1, 0⟩, 0⟩
      ⟨false, ObjectWCC.new, .empty, true, none, .ok [], 2⟩ rfl).2 rfl
  rw [h]
  rfl

/-! ## MONSTER read classification (`src/algorithms/monster.rs`, `monster_read`) -/

/-- The accumulator update of the single-pass fold in `monster_read`:
`(cons && s.wid == states[0].wid, if s.wid > best.wid then s else best)`. -/
def readFoldStep {T : Type} (s0 : ObjectMemoryEntry T)
    (p : Bool × ObjectMemoryEntry T) (s : ObjectMemoryEntry T) :
    Bool × ObjectMemoryEntry T :=
  (p.1 && decide (s.wid = s0.wid), if Wid.lt p.2.wid s.wid then s else p.2)

/-- The classification step of `monster_read` on the entries returned by a
successful `mem_readall`: a single fold over `states.iter().skip(1)` seeded
with `(true, &states[0])`. On an empty vector the seed `&states[0]` indexes
out of bounds and the read worker panics, modelled by `none`. -/
def monster_read_classify {T : Type} (states : List (ObjectMemoryEntry T)) :
    Option (ReadReturn T) :=
  match states with
  | [] => none
  | s0 :: rest =>
    let p := rest.foldl (readFoldStep s0) (true, s0)
    some (if p.1 then ReadReturn.ReadSafe p.2.value else ReadReturn.ReadDirty p.2.value)

/-- The fold's running best: it starts at the seed, never leaves the scanned
entries, and dominates the seed and every scanned entry in the Wid order. -/
theorem readFold_best {T : Type} (s0 : ObjectMemoryEntry T) :
    ∀ (l : List (ObjectMemoryEntry T)) (acc : Bool × ObjectMemoryEntry T),
      ((l.foldl (readFoldStep s0) acc).2 = acc.2 ∨ (l.foldl (readFoldStep s0) acc).2 ∈ l) ∧
      Wid.le acc.2.wid (l.foldl (readFoldStep s0) acc).2.wid ∧
      (∀ e ∈ l, Wid.le e.wid (l.foldl (readFoldStep s0) acc).2.wid)
  | [], acc => ⟨Or.inl rfl, Wid.le_refl _, by simp⟩
  | s :: l, acc => by
    have ih := readFold_best s0 l (readFoldStep s0 acc s)
    rw [List.foldl_cons]
    obtain ⟨ih1, ih2, ih3⟩ := ih
    have hstep : (readFoldStep s0 acc s).2 = s ∨ (readFoldStep s0 acc s).2 = acc.2 := by
      rw [readFoldStep]
      by_cases hlt : Wid.lt acc.2.wid s.wid <;> simp [hlt]
    have hacc : Wid.le acc.2.wid (readFoldStep s0 acc s).2.wid := by
      rw [readFoldStep]
      by_cases hlt : Wid.lt acc.2.wid s.wid
      · simpa [hlt] using Wid.le_of_lt hlt
      · simp only [Bool.not_eq_true] at hlt
        simp [hlt, Wid.le_refl]
    have hs : Wid.le s.wid (readFoldStep s0 acc s).2.wid := by
      rw [readFoldStep]
      by_cases hlt : Wid.lt acc.2.wid s.wid
      · simp [hlt, Wid.le_refl]
      · simp only [Bool.not_eq_true] at hlt
        simpa [hlt] using Wid.le_of_not_lt hlt
    refine ⟨?_, Wid.le_trans hacc ih2, ?_⟩
    · rcases ih1 with h | h
      · rw [h]
        rcases hstep with h' | h'
        · rw [h']
          exact Or.inr (List.mem_cons_self _ _)
        · exact Or.inl h'
      · exact Or.inr (List.mem_cons_of_mem _ h)
    · intro e he
      rcases List.mem_cons.mp he with rfl | he'
      · exact Wid.le_trans hs ih2
      · exact ih3 e he'

/-- The fold's consistency flag equals the conjunction of the seed flag with
"every scanned entry has the seed's wid". -/
theorem readFold_cons {T : Type} (s0 : ObjectMemoryEntry T) :
    ∀ (l : List (ObjectMemoryEntry T)) (acc : Bool × ObjectMemoryEntry T),
      (l.foldl (readFoldStep s0) acc).1 =
        (acc.1 && l.all (fun s => decide (s.wid = s0.wid)))
  | [], acc => by simp
  | s :: l, acc => by
    rw [List.foldl_cons, readFold_cons s0 l, readFoldStep, List.all_cons]
    simp [Bool.and_assoc]

/-- C4 (confirmed): on a successful `mem_readall` with a non-empty entry list,
`monster_read` replies `ReadSafe(v)` when all returned entries carry the same
wid and `ReadDirty(v)` otherwise, `v` being the value of an entry whose wid is
maximal among those returned. -/
theorem claim_C4 {T : Type} (states : List (ObjectMemoryEntry T)) (h : states ≠ []) :
    ∃ e, e ∈ states ∧ (∀ e' ∈ states, Wid.le e'.wid e.wid) ∧
      ((∀ a ∈ states, ∀ b ∈ states, a.wid = b.wid) →
        monster_read_classify states = some (ReadReturn.ReadSafe e.value)) ∧
      ((¬ ∀ a ∈ states, ∀ b ∈ states, a.wid = b.wid) →
        monster_read_classify states = some (ReadReturn.ReadDirty e.value)) := by
  match states with
  | [] => exact absurd rfl h
  | s0 :: rest =>
    obtain ⟨hmem, hseed, hdom⟩ := readFold_best s0 rest (true, s0)
    have hcons := readFold_cons s0 rest (true, s0)
    set p := rest.foldl (readFoldStep s0) (true, s0) with hp
    have hmem' : p.2 ∈ s0 :: rest := by
      rcases hmem with h' | h'
      · exact h' ▸ List.mem_cons_self _ _
      · exact List.mem_cons_of_mem _ h'
    have hflag : p.1 = true ↔ (∀ a ∈ s0 :: rest, ∀ b ∈ s0 :: rest, a.wid = b.wid) := by
      rw [hcons]
      simp only [Bool.true_and, List.all_eq_true, decide_eq_true_eq]
      constructor
      · intro hall a ha b hb
        have key : ∀ c ∈ s0 :: rest, c.wid = s0.wid := by
          intro c hc
          rcases List.mem_cons.mp hc with rfl | hc'
          · rfl
          · exact hall c hc'
        rw [key a ha, key b hb]
      · intro hpair s hs
        exact hpair s (List.mem_cons_of_mem _ hs) s0 (List.mem_cons_self _ _)
    refine ⟨p.2, hmem', ?_, ?_, ?_⟩
    · intro e' he'
      rcases List.mem_cons.mp he' with rfl | he''
      · exact hseed
      · exact hdom e' he''
    · intro hall
      rw [monster_read_classify]
      simp only [← hp, hflag.mpr hall, if_true]
    · intro hnall
      rw [monster_read_classify]
      have hq : p.1 = false := by
        cases hq : p.1
        · rfl
        · exact absurd (hflag.mp hq) hnall
      simp only [← hp, hq]
      rfl

/-- C4 witness: a singleton read (all wids trivially equal) classifies as
`ReadSafe` of its value. -/
theorem claim_C4_witness :
    monster_read_classify [(⟨⟨1, 0⟩, (42 : Nat)⟩ : ObjectMemoryEntry Nat)] =
      some (ReadReturn.ReadSafe 42) := by
  obtain ⟨e, hmem, _, hsafe, _⟩ :=
    claim_C4 [(⟨⟨1, 0⟩, (42 : Nat)⟩ : ObjectMemoryEntry Nat)] (by decide)
  rw [List.mem_singleton] at hmem
  subst hmem
  exact hsafe (by decide)

/-! ## Safe memory I/O (`src/safe_memio.rs`)

A memory node is modelled by its id, mapped size, and the object-area
contents at each offset. The per-call failure rolls of `safe_write` /
`safe_read` are supplied as an oracle `fails` on node ids. `addr_at`
(`memory.rs`) checks `offset >= self.size` and panics on violation, modelled
by the `panicked` outcome. -/

/-- A mapped memory node: id, region size, and object-area contents. -/
structure MemNode (T : Type) where
  id : Nat
  size : Nat
  store : Nat → ObjectMemoryEntry T

/-- Outcome of a composite memory operation: a Rust panic, a
`MemoryError(node_id)`, or a success carrying `α`. -/
inductive MemResult (α : Type) where
  | panicked
  | memErr (node_id : Nat)
  | ok (a : α)
deriving Repr

/-- The effect of `safe_write` on one node's object area. -/
def writeEntry {T : Type} (offset : Nat) (ome : ObjectMemoryEntry T) (n : MemNode T) :
    MemNode T :=
  { n with store := fun o => if o = offset then ome else n.store o }

/-- Fan-out `mem_writeall(offset, ome, mem_nodes)`: sequential fan-out over the node
list, failing fast with `MemoryError(node.id)` on the first per-node failure;
returns the updated node list together with the outcome. -/
def mem_writeall {T : Type} (fails : Nat → Bool) (offset : Nat)
    (ome : ObjectMemoryEntry T) :
    List (MemNode T) → List (MemNode T) × MemResult Unit
  | [] => ([], .ok ())
  | n :: rest =>
    if n.size ≤ offset then (n :: rest, .panicked)
    else if fails n.id then (n :: rest, .memErr n.id)
    else
      let res := mem_writeall fails offset ome rest
      (writeEntry offset ome n :: res.1, res.2)

/-- Fan-out `mem_readall(offset, mem_nodes)`: sequential fan-out over the node list,
collecting one entry per node in node order, failing fast with
`MemoryError(node.id)` on the first per-node failure. -/
def mem_readall {T : Type} (fails : Nat → Bool) (offset : Nat) :
    List (MemNode T) → MemResult (List (ObjectMemoryEntry T))
  | [] => .ok []
  | n :: rest =>
    if n.size ≤ offset then .panicked
    else if fails n.id then .memErr n.id
    else
      match mem_readall fails offset rest with
      | .ok l => .ok (n.store offset :: l)
      | .panicked => .panicked
      | .memErr k => .memErr k

/-- When the offset is in bounds and no node fails, `mem_writeall` updates
every node in order and succeeds. -/
theorem mem_writeall_ok {T : Type} (fails : Nat → Bool) (offset : Nat)
    (ome : ObjectMemoryEntry T) :
    ∀ (nodes : List (MemNode T)), (∀ n ∈ nodes, offset < n.size) →
      (∀ n ∈ nodes, fails n.id = false) →
      mem_writeall fails offset ome nodes =
        (nodes.map (writeEntry offset ome), MemResult.ok ())
  | [], _, _ => rfl
  | n :: rest, hb, hok => by
    have hn : ¬ n.size ≤ offset := by
      have := hb n (List.mem_cons_self _ _)
      omega
    have hrec := mem_writeall_ok fails offset ome rest
      (fun m hm => hb m (List.mem_cons_of_mem _ hm))
      (fun m hm => hok m (List.mem_cons_of_mem _ hm))
    rw [mem_writeall, if_neg hn, hok n (List.mem_cons_self _ _)]
    simp only [Bool.false_eq_true, if_false, hrec, List.map_cons]

/-- When the offset is in bounds and no node fails, `mem_readall` returns one
entry per node in node order. -/
theorem mem_readall_ok {T : Type} (fails : Nat → Bool) (offset : Nat) :
    ∀ (nodes : List (MemNode T)), (∀ n ∈ nodes, offset < n.size) →
      (∀ n ∈ nodes, fails n.id = false) →
      mem_readall fails offset nodes = .ok (nodes.map (fun n => n.store offset))
  | [], _, _ => rfl
  | n :: rest, hb, hok => by
    have hn : ¬ n.size ≤ offset := by
      have := hb n (List.mem_cons_self _ _)
      omega
    have hrec := mem_readall_ok fails offset rest
      (fun m hm => hb m (List.mem_cons_of_mem _ hm))
      (fun m hm => hok m (List.mem_cons_of_mem _ hm))
    rw [mem_readall, if_neg hn, hok n (List.mem_cons_self _ _)]
    simp only [Bool.false_eq_true, if_false, hrec, List.map_cons]

/-- When the offset is in bounds and `nf` is the first failing node,
`mem_writeall` writes the nodes before `nf`, reports `MemoryError(nf.id)`,
and leaves `nf` and all later nodes untouched. -/
theorem mem_writeall_fail {T : Type} (fails : Nat → Bool) (offset : Nat)
    (ome : ObjectMemoryEntry T) (nf : MemNode T) (post : List (MemNode T)) :
    ∀ (pre : List (MemNode T)),
      (∀ n ∈ pre ++ nf :: post, offset < n.size) →
      (∀ n ∈ pre, fails n.id = false) → fails nf.id = true →
      mem_writeall fails offset ome (pre ++ nf :: post) =
        (pre.map (writeEntry offset ome) ++ nf :: post, MemResult.memErr nf.id)
  | [], hb, _, hnf => by
    have hn : ¬ nf.size ≤ offset := by
      have := hb nf (List.mem_cons_self _ _)
      omega
    rw [List.nil_append, mem_writeall, if_neg hn, hnf]
    rfl
  | p :: pre', hb, hpre, hnf => by
    have hp : ¬ p.size ≤ offset := by
      have := hb p (List.mem_cons_self _ _)
      omega
    have hrec := mem_writeall_fail fails offset ome nf post pre'
      (fun m hm => hb m (List.mem_cons_of_mem _ hm))
      (fun m hm => hpre m (List.mem_cons_of_mem _ hm)) hnf
    rw [List.cons_append, mem_writeall, if_neg hp, hpre p (List.mem_cons_self _ _)]
    simp only [Bool.false_eq_true, if_false, hrec, List.map_cons, List.cons_append]

/-- When the offset is in bounds and `nf` is the first failing node,
`mem_readall` reports `MemoryError(nf.id)`. -/
theorem mem_readall_fail {T : Type} (fails : Nat → Bool) (offset : Nat)
    (nf : MemNode T) (post : List (MemNode T)) :
    ∀ (pre : List (MemNode T)),
      (∀ n ∈ pre ++ nf :: post, offset < n.size) →
      (∀ n ∈ pre, fails n.id = false) → fails nf.id = true →
      mem_readall fails offset (pre ++ nf :: post) = .memErr nf.id
  | [], hb, _, hnf => by
    have hn : ¬ nf.size ≤ offset := by
      have := hb nf (List.mem_cons_self _ _)
      omega
    rw [List.nil_append, mem_readall, if_neg hn, hnf]
    rfl
  | p :: pre', hb, hpre, hnf => by
    have hp : ¬ p.size ≤ offset := by
      have := hb p (List.mem_cons_self _ _)
      omega
    have hrec := mem_readall_fail fails offset nf post pre'
      (fun m hm => hb m (List.mem_cons_of_mem _ hm))
      (fun m hm => hpre m (List.mem_cons_of_mem _ hm)) hnf
    rw [List.cons_append, mem_readall, if_neg hp, hpre p (List.mem_cons_self _ _)]
    simp only [Bool.false_eq_true, if_false, hrec]

/-- C8 (corrected): provided the offset is in bounds for every node (the
amendment; `addr_at` panics otherwise), `mem_writeall` writes sequentially in
list order and fails fast naming the first failing node without touching
later nodes, and `mem_readall` returns exactly one entry per node in node
order or names the first failing node. -/
theorem claim_C8 {T : Type} (fails : Nat → Bool) (offset : Nat)
    (ome : ObjectMemoryEntry T) (nodes : List (MemNode T))
    (hb : ∀ n ∈ nodes, offset < n.size) :
    ((∀ n ∈ nodes, fails n.id = false) →
      mem_writeall fails offset ome nodes =
        (nodes.map (writeEntry offset ome), MemResult.ok ()) ∧
      mem_readall fails offset nodes = .ok (nodes.map (fun n => n.store offset))) ∧
    (∀ pre nf post, nodes = pre ++ nf :: post →
      (∀ n ∈ pre, fails n.id = false) → fails nf.id = true →
      mem_writeall fails offset ome nodes =
        (pre.map (writeEntry offset ome) ++ nf :: post, MemResult.memErr nf.id) ∧
      mem_readall fails offset nodes = .memErr nf.id) := by
  constructor
  · intro hok
    exact ⟨mem_writeall_ok fails offset ome nodes hb hok,
           mem_readall_ok fails offset nodes hb hok⟩
  · intro pre nf post hsplit hpre hnf
    subst hsplit
    exact ⟨mem_writeall_fail fails offset ome nf post pre hb hpre hnf,
           mem_readall_fail fails offset nf post pre hb hpre hnf⟩

/-- C8 counterexample: with the offset out of a node's mapped bounds,
`addr_at` panics, so the fan-out neither returns `Ok` nor an error naming a
failing node — refuting the claim's unrestricted "for every offset". No
per-node failure is injected (`fails` is constantly false). -/
theorem claim_C8_counterexample :
    (mem_writeall (T := Nat) (fun _ => false) 4 ⟨⟨1, 0⟩, 7⟩
        [⟨0, 4, fun _ => ⟨⟨0, 0⟩, 0⟩⟩]).2 = MemResult.panicked ∧
    mem_readall (T := Nat) (fun _ => false) 4 [⟨0, 4, fun _ => ⟨⟨0, 0⟩, 0⟩⟩] =
      MemResult.panicked :=
  ⟨rfl, rfl⟩

/-- C8 witness: two in-bounds nodes where node `1`'s write fails: the fan-out
reports `MemoryError(1)` and the read fan-out likewise. -/
theorem claim_C8_witness :
    (mem_writeall (T := Nat) (fun k => decide (k = 1)) 0 ⟨⟨1, 0⟩, 7⟩
        [⟨0, 8, fun _ => ⟨⟨0, 0⟩, 0⟩⟩, ⟨1, 8, fun _ => ⟨⟨0, 0⟩, 0⟩⟩]).2 =
      MemResult.memErr 1 ∧
    mem_readall (T := Nat) (fun k => decide (k = 1)) 0
        [⟨0, 8, fun _ => ⟨⟨0, 0⟩, 0⟩⟩, ⟨1, 8, fun _ => ⟨⟨0, 0⟩, 0⟩⟩] =
      MemResult.memErr 1 := by
  have h := (claim_C8 (T := Nat) (fun k => decide (k = 1)) 0 ⟨⟨1, 0⟩, 7⟩
      [⟨0, 8, fun _ => ⟨⟨0, 0⟩, 0⟩⟩, ⟨1, 8, fun _ => ⟨⟨0, 0⟩, 0⟩⟩]
      (by
        intro n hn
        simp only [List.mem_cons, List.not_mem_nil, or_false] at hn
        rcases hn with rfl | rfl <;> decide)).2
      [⟨0, 8, fun _ => ⟨⟨0, 0⟩, 0⟩⟩] ⟨1, 8, fun _ => ⟨⟨0, 0⟩, 0⟩⟩ [] rfl
      (by
        intro n hn
        simp only [List.mem_cons, List.not_mem_nil, or_false] at hn
        subst hn
        decide) rfl
  refine ⟨?_, h.2⟩
  rw [h.1]

/-- C10 (confirmed): with zero memory nodes `mem_readall` succeeds with the
empty vector and the classification step panics (indexes element 0 of an
empty vector) instead of producing a reply; with a non-empty entry list the
classification always produces a reply. -/
theorem claim_C10 {T : Type} (fails : Nat → Bool) (offset : Nat) :
    mem_readall (T := T) fails offset [] = .ok [] ∧
    monster_read_classify (T := T) [] = none ∧
    ∀ (l : List (ObjectMemoryEntry T)), l ≠ [] →
      (monster_read_classify l).isSome = true := by
  refine ⟨rfl, rfl, ?_⟩
  intro l hl
  match l with
  | [] => exact absurd rfl hl
  | s0 :: rest => rfl

/-- C10 witness: a one-entry list always classifies. -/
theorem claim_C10_witness :
    (monster_read_classify [(⟨⟨1, 0⟩, (0 : Nat)⟩ : ObjectMemoryEntry Nat)]).isSome = true :=
  (claim_C10 (T := Nat) (fun _ => false) 0).2.2 _ (by decide)

/-! ## Round scheduler (`src/algorithms.rs`, `wait_next_round`)

Times are nanoseconds since the epoch, modelled as `Nat`. The function's
arithmetic is embedded exactly (`elapsed = now - start_time`,
`round_num = floor(elapsed / round_time)`,
`next_round = start_time + round_time * (round_num + 1)`); the sleep and the
spin-wait guarantee that the call returns no earlier than the returned round
start, so successive calls by one worker satisfy
`t (k+1) ≥ (wait_next_round_calc start round (t k)).2`. -/

/-- The value computed and returned by `wait_next_round(start_time,
round_time, sleep_ratio)` when the wall clock reads `now`: the pair
`(round_num + 1, next_round_start)`. -/
def wait_next_round_calc (start_time round_time now : Nat) : Nat × Nat :=
  let elapsed := now - start_time
  let round_num := elapsed / round_time
  (round_num + 1, start_time + round_time * (round_num + 1))

/-- C7 counterexample: with `start_time = 0` and `round_time = 10`, a first
call at `now = 5` returns round `1` with round start `10`; a second call at
`now = 25` — a legitimate successor instant, since `25 ≥ 10` — returns round
`3`, not `2`: the sequence of returned round numbers skipped a round, so it
does not increase by exactly one at each call. -/
theorem claim_C7_counterexample :
    wait_next_round_calc 0 10 5 = (1, 10) ∧
    (wait_next_round_calc 0 10 5).2 ≤ 25 ∧
    wait_next_round_calc 0 10 25 = (3, 30) ∧
    (wait_next_round_calc 0 10 25).1 ≠ (wait_next_round_calc 0 10 5).1 + 1 := by
  decide

/-- C7 (corrected): for a positive round duration, the round numbers returned
by successive `wait_next_round` calls (each made no earlier than the round
start returned by the previous call) form a strictly increasing sequence;
the increase is at least one but, as the counterexample shows, not always
exactly one. -/
theorem claim_C7 (start_time round_time : Nat) (t : Nat → Nat)
    (hT : 0 < round_time)
    (hseq : ∀ k, (wait_next_round_calc start_time round_time (t k)).2 ≤ t (k + 1)) :
    ∀ k, (wait_next_round_calc start_time round_time (t k)).1 <
      (wait_next_round_calc start_time round_time (t (k + 1))).1 := by
  intro k
  have h := hseq k
  simp only [wait_next_round_calc] at h ⊢
  set r := (t k - start_time) / round_time with hr
  have h2 : round_time * (r + 1) ≤ t (k + 1) - start_time := by omega
  have h2' : (r + 1) * round_time ≤ t (k + 1) - start_time := by
    rwa [Nat.mul_comm] at h2
  have h3 : r + 1 ≤ (t (k + 1) - start_time) / round_time :=
    (Nat.le_div_iff_mul_le hT).mpr h2'
  omega

/-- C7 witness: calling every 10 ns from 5 ns after the start, with a 10 ns
round, the first two returned round numbers are strictly increasing. -/
theorem claim_C7_witness :
    (wait_next_round_calc 0 10 (5 + 10 * 0)).1 <
      (wait_next_round_calc 0 10 (5 + 10 * 1)).1 :=
  claim_C7 0 10 (fun k => 5 + 10 * k) (by decide)
    (by
      intro k
      simp only [wait_next_round_calc]
      omega) 0

/-! ## Object handle ack channels (`src/lib.rs`, `RepCXLObject`)

An `mpsc` endpoint pair is modelled by the channel's buffered messages and
two liveness flags. `send` delivers only when the receiver end is alive
(otherwise `std::sync::mpsc::Sender::send` returns `Err`); a `recv` on an
empty buffer whose senders are all dropped returns `Err(RecvError)`
immediately, and otherwise would block. -/

/-- State of one `mpsc` channel. -/
structure MpscChannel (α : Type) where
  queue : List α
  sendersAlive : Bool
  receiverAlive : Bool
deriving DecidableEq, Repr

/-- What a (blocking) `recv` on the channel observes. -/
inductive RecvResult (α : Type) where
  | msg (a : α)
  | wouldBlock
  | disconnected
deriving DecidableEq, Repr

/-- Operation `Sender::send`: enqueues only while the receiver is alive; returns
whether the message was delivered. -/
def MpscChannel.send {α : Type} (c : MpscChannel α) (a : α) : MpscChannel α × Bool :=
  if c.receiverAlive then ({ c with queue := c.queue ++ [a] }, true) else (c, false)

/-- Operation `Receiver::recv`, resolved: first buffered message, else blocks while a
sender is alive, else `Err(RecvError)`. -/
def MpscChannel.recvCheck {α : Type} (c : MpscChannel α) : RecvResult α :=
  match c.queue with
  | a :: _ => .msg a
  | [] => if c.sendersAlive then .wouldBlock else .disconnected

/-- The channel whose `Sender` half is stored as `ack_tx` by
`RepCXLObject::new`: `mpsc::channel().0` keeps the sender and drops the
receiver on the spot. -/
def ackTxChannel : MpscChannel Bool :=
  { queue := [], sendersAlive := true, receiverAlive := false }

/-- The channel whose `Receiver` half is stored as `ack_rx` by
`RepCXLObject::new`: `mpsc::channel().1` keeps the receiver and drops the
sender on the spot. It is a different channel from `ackTxChannel`. -/
def ackRxChannel : MpscChannel Bool :=
  { queue := [], sendersAlive := false, receiverAlive := true }

/-- Return value of `RepCXLObject::write`. -/
inductive WriteOutcome where
  | ok
  | failedWrite
  | recvError
  | sizeMismatch
  | blocked
deriving DecidableEq, Repr

/-- Operation `RepCXLObject::write(data)`: after the size guard and the queue
submission, the call blocks on `self.ack_rx.recv()` and maps `Ok(true)` to
`Ok(())`, `Ok(false)` to the "Failed write operation" error, and a recv
failure to the "Failed to receive ack" error. -/
def RepCXLObject.write (dataSize objSize : Nat) (ack_rx : MpscChannel Bool) :
    WriteOutcome :=
  if dataSize ≠ objSize then .sizeMismatch
  else
    match ack_rx.recvCheck with
    | .msg true => .ok
    | .msg false => .failedWrite
    | .wouldBlock => .blocked
    | .disconnected => .recvError

/-- C9 (code bug): the worker's `ack(true)`, sent on the port the client
submitted (a clone of `ack_tx`), is never delivered — that channel's receiver
was dropped inside `RepCXLObject::new` — and the client's blocking `recv` on
`ack_rx` (whose only sender was likewise dropped at construction) returns
`Err` immediately, so `write` returns the "Failed to receive ack" error
instead of `Ok(())`. The claim (and the dead `Ok(true)/Ok(false)` match arms
of the source) require the two ports to be the ends of one channel. -/
theorem claim_C9 :
    (ackTxChannel.send true).2 = false ∧
    RepCXLObject.write 8 8 ackRxChannel = .recvError ∧
    RepCXLObject.write 8 8 ackRxChannel ≠ .ok := by
  refine ⟨rfl, rfl, ?_⟩
  decide

/-! ## Object index allocator (`src/shmem/allocator.rs`)

The fixed `MAX_OBJECTS`-slot array of `Option<ObjectInfo>` is modelled as a
list of options (`Allocator::new` fills `MAX_OBJECTS` slots). Two Rust panics
inside `alloc_object` are modelled by the `Except.error` outcome: the
division by a zero `chunk_size` in the rounding expression, and the
`.expect("Previous entry should exist")` on the predecessor slot during the
first-fit scan. -/

/-- Record `ObjectInfo { id, offset, size }`. -/
structure ObjectInfo where
  id : Nat
  offset : Nat
  size : Nat
deriving DecidableEq, Repr

/-- The slot array of the object index. -/
abbrev Slots := List (Option ObjectInfo)

/-- Sum of the sizes of the allocated entries of the index. -/
def sumSizes : Slots → Nat
  | [] => 0
  | some o :: rest => o.size + sumSizes rest
  | none :: rest => sumSizes rest

/-- The ids of the allocated entries of the index, in slot order. -/
def idsOf : Slots → List Nat
  | [] => []
  | some o :: rest => o.id :: idsOf rest
  | none :: rest => idsOf rest

/-- The linear scan of `lookup_object`: first allocated entry with the id. -/
def findSlot (id : Nat) : Slots → Option ObjectInfo
  | [] => none
  | some o :: rest => if o.id = id then some o else findSlot id rest
  | none :: rest => findSlot id rest

/-- The `end` bound of a candidate gap: the offset of the first allocated
entry at a later slot, or `total` if there is none (the inner `for j` loop of
`alloc_object`). -/
def nextBound (total : Nat) : Slots → Nat
  | [] => total
  | some o :: _ => o.offset
  | none :: rest => nextBound total rest

/-- The first-fit scan of `alloc_object` (`for i in 0..MAX_OBJECTS`).
`prevStart` is `some start` when the gap start for the slot at hand is known
(`0` at slot 0, or the previous entry's `offset + size`), and `none` when the
preceding slot is empty — in which case landing on a further empty slot hits
`.expect("Previous entry should exist")` and panics (`Except.error ()`). -/
def allocScan (total sizeR id : Nat) : Option Nat → Slots → Except Unit (Slots × Option Nat)
  | _, [] => .ok ([], none)
  | none, none :: _ => .error ()
  | some start, none :: rest =>
    if start + sizeR ≤ nextBound total rest then
      .ok (some ⟨id, start, sizeR⟩ :: rest, some start)
    else
      match allocScan total sizeR id none rest with
      | .error e => .error e
      | .ok (rest', r) => .ok (none :: rest', r)
  | prev, some o :: rest =>
    match allocScan total sizeR id (some (o.offset + o.size)) rest with
    | .error e => .error e
    | .ok (rest', r) => .ok (some o :: rest', r)

/-- The allocator: `{ total_size, allocated_size, chunk_size, object_index }`. -/
structure Allocator where
  total_size : Nat
  allocated_size : Nat
  chunk_size : Nat
  object_index : Slots
deriving DecidableEq, Repr

/-- Constructor `Allocator::new(total_size, chunk_size)`. -/
def Allocator.new (total chunk : Nat) : Allocator :=
  ⟨total, 0, chunk, List.replicate MAX_OBJECTS none⟩

/-- Operation `Allocator::lookup_object(id)`. -/
def Allocator.lookup_object (a : Allocator) (id : Nat) : Option ObjectInfo :=
  findSlot id a.object_index

/-- Operation `Allocator::alloc_object(id, size)`: chunk-rounds the size, fails
(`none`) on insufficient space, duplicate id, or no fitting gap, and returns
the offset of the placed entry otherwise. `Except.error ()` models the two
reachable panics (zero chunk size; empty predecessor slot in the scan). -/
def Allocator.alloc_object (a : Allocator) (id size : Nat) :
    Except Unit (Allocator × Option Nat) :=
  if a.chunk_size = 0 then .error () else
  let sizeR := ((size + a.chunk_size - 1) / a.chunk_size) * a.chunk_size
  if a.total_size < a.allocated_size + sizeR then .ok (a, none)
  else if (a.lookup_object id).isSome then .ok (a, none)
  else
    match allocScan a.total_size sizeR id (some 0) a.object_index with
    | .error e => .error e
    | .ok (_, none) => .ok (a, none)
    | .ok (idx', some start) =>
      .ok ({ a with object_index := idx',
                    allocated_size := a.allocated_size + sizeR }, some start)

/-- The slot walk of `dealloc_object`: clears every entry with the id,
subtracting its size from the running `allocated_size` accumulator. -/
def deallocWalk (id : Nat) : Slots → Nat → Slots × Nat
  | [], acc => ([], acc)
  | some o :: rest, acc =>
    if o.id = id then
      let res := deallocWalk id rest (acc - o.size)
      (none :: res.1, res.2)
    else
      let res := deallocWalk id rest acc
      (some o :: res.1, res.2)
  | none :: rest, acc =>
    let res := deallocWalk id rest acc
    (none :: res.1, res.2)

/-- Operation `Allocator::dealloc_object(id)`. -/
def Allocator.dealloc_object (a : Allocator) (id : Nat) : Allocator :=
  let res := deallocWalk id a.object_index a.allocated_size
  { a with object_index := res.1, allocated_size := res.2 }

/-- A client-visible call sequence against one allocator. -/
inductive AllocOp where
  | alloc (id size : Nat)
  | dealloc (id : Nat)
deriving DecidableEq, Repr

/-- Runs a sequence of allocator calls, stopping at the first panic. -/
def runAllocOps (a : Allocator) : List AllocOp → Except Unit Allocator
  | [] => .ok a
  | .alloc id s :: rest =>
    match a.alloc_object id s with
    | .error e => .error e
    | .ok (a', _) => runAllocOps a' rest
  | .dealloc id :: rest => runAllocOps (a.dealloc_object id) rest

/-- C5 (code bug): `alloc_object` can terminate by panic rather than
returning `Some`/`None`. Against its own doc comment ("Returns Some(offset)
if a suitable slot is found, otherwise None") and the spec, the reachable
state below drives the first-fit scan onto an empty slot whose predecessor
slot is also empty, so `object_index[i - 1].map(...).expect("Previous entry
should exist")` panics. With `total_size = 4`, `chunk_size = 1`: allocate
ids 1, 2, 3 (one byte each, filling offsets 0, 1, 2), free ids 1 and 2, then
request 3 bytes for id 4: the gap at slot 0 (2 bytes) does not fit, slot 1
is empty with empty predecessor — panic. -/
theorem claim_C5 :
    runAllocOps (Allocator.new 4 1)
      [.alloc 1 1, .alloc 2 1, .alloc 3 1, .dealloc 1, .dealloc 2, .alloc 4 3] =
      .error () := by
  rfl

/-! ### The allocator's structural invariant (claim C6)

`Chained lo l` says the allocated entries of the slot list `l` appear in
increasing offset order with pairwise disjoint `[offset, offset + size)`
ranges, all at or beyond offset `lo`. This is the inductive strengthening of
the claimed disjointness: slot order must agree with offset order for the
first-fit scan's neighbour arithmetic to be sound. -/

/-- Entries appear at increasing, pairwise disjoint ranges from `lo` on. -/
def Chained : Nat → Slots → Prop
  | _, [] => True
  | lo, none :: rest => Chained lo rest
  | lo, some o :: rest => lo ≤ o.offset ∧ Chained (o.offset + o.size) rest

theorem chained_cons_none (lo : Nat) (rest : Slots) :
    Chained lo (none :: rest) ↔ Chained lo rest := Iff.rfl

theorem chained_cons_some (lo : Nat) (o : ObjectInfo) (rest : Slots) :
    Chained lo (some o :: rest) ↔ lo ≤ o.offset ∧ Chained (o.offset + o.size) rest := Iff.rfl

theorem chained_mono : ∀ (l : Slots) {a b : Nat}, a ≤ b → Chained b l → Chained a l
  | [], _, _, _, _ => trivial
  | none :: rest, a, b, hab, hch => chained_mono rest hab hch
  | some o :: rest, a, b, hab, hch => ⟨Nat.le_trans hab hch.1, hch.2⟩

/-- A chain bound can be raised to anything at most the next entry bound. -/
theorem chained_of_le_nextBound {total : Nat} :
    ∀ (l : Slots) {lo b : Nat}, Chained lo l → b ≤ nextBound total l → Chained b l
  | [], _, _, _, _ => trivial
  | none :: rest, lo, b, hch, hb =>
    chained_of_le_nextBound rest hch (by rwa [nextBound] at hb)
  | some o :: rest, lo, b, hch, hb => ⟨by rwa [nextBound] at hb, hch.2⟩

theorem sumSizes_append : ∀ (l₁ l₂ : Slots),
    sumSizes (l₁ ++ l₂) = sumSizes l₁ + sumSizes l₂
  | [], l₂ => by simp [sumSizes]
  | some o :: rest, l₂ => by
    simp only [List.cons_append, sumSizes, List.append_eq, sumSizes_append rest l₂]
    omega
  | none :: rest, l₂ => by
    simp only [List.cons_append, sumSizes, List.append_eq, sumSizes_append rest l₂]

theorem idsOf_append : ∀ (l₁ l₂ : Slots), idsOf (l₁ ++ l₂) = idsOf l₁ ++ idsOf l₂
  | [], l₂ => by simp [idsOf]
  | some o :: rest, l₂ => by
    simp only [List.cons_append, idsOf, List.append_eq, idsOf_append rest l₂]
  | none :: rest, l₂ => by
    simp only [List.cons_append, idsOf, List.append_eq, idsOf_append rest l₂]

theorem findSlot_eq_none_iff (id : Nat) :
    ∀ (l : Slots), findSlot id l = none ↔ id ∉ idsOf l
  | [] => by simp [findSlot, idsOf]
  | some o :: rest => by
    rw [findSlot, idsOf]
    by_cases h : o.id = id
    · simp [h]
    · rw [if_neg h, findSlot_eq_none_iff id rest]
      simp only [List.mem_cons]
      constructor
      · intro hn hc
        rcases hc with hc | hc
        · exact h hc.symm
        · exact hn hc
      · intro hn hm
        exact hn (Or.inr hm)
  | none :: rest => by
    rw [findSlot, idsOf]
    exact findSlot_eq_none_iff id rest

/-- Successful placement shape: a scan that returns an offset replaced
exactly one empty slot by the new entry and left every other slot alone. -/
theorem allocScan_shape (total sizeR id : Nat) :
    ∀ (l : Slots) (prev : Option Nat) (l' : Slots) (st : Nat),
      allocScan total sizeR id prev l = .ok (l', some st) →
      ∃ pre post, l = pre ++ none :: post ∧
        l' = pre ++ some ⟨id, st, sizeR⟩ :: post
  | [], prev, l', st, heq => by
    rw [allocScan] at heq
    simp only [Except.ok.injEq, Prod.mk.injEq] at heq
    exact absurd heq.2 (by simp)
  | none :: rest, none, l', st, heq => by
    rw [allocScan] at heq
    exact Except.noConfusion heq
  | none :: rest, some start, l', st, heq => by
    rw [allocScan] at heq
    by_cases hfit : start + sizeR ≤ nextBound total rest
    · rw [if_pos hfit] at heq
      simp only [Except.ok.injEq, Prod.mk.injEq] at heq
      obtain ⟨h1, h2⟩ := heq
      cases h2
      exact ⟨[], rest, rfl, h1.symm⟩
    · rw [if_neg hfit] at heq
      cases hrec : allocScan total sizeR id none rest with
      | error e => rw [hrec] at heq; exact Except.noConfusion heq
      | ok p =>
        rw [hrec] at heq
        simp only [Except.ok.injEq, Prod.mk.injEq] at heq
        obtain ⟨h1, h2⟩ := heq
        obtain ⟨pre', post', hl, hl'⟩ :=
          allocScan_shape total sizeR id rest none p.1 st (by rw [hrec, ← h2])
        exact ⟨none :: pre', post', by rw [hl, List.cons_append],
          by rw [← h1, hl', List.cons_append]⟩
  | some o :: rest, prev, l', st, heq => by
    rw [allocScan] at heq
    cases hrec : allocScan total sizeR id (some (o.offset + o.size)) rest with
    | error e => rw [hrec] at heq; exact Except.noConfusion heq
    | ok p =>
      rw [hrec] at heq
      simp only [Except.ok.injEq, Prod.mk.injEq] at heq
      obtain ⟨h1, h2⟩ := heq
      obtain ⟨pre', post', hl, hl'⟩ :=
        allocScan_shape total sizeR id rest (some (o.offset + o.size)) p.1 st
          (by rw [hrec, ← h2])
      exact ⟨some o :: pre', post', by rw [hl, List.cons_append],
        by rw [← h1, hl', List.cons_append]⟩

/-- A successful scan preserves the chain invariant (with the new entry
included). `prev`, when known, coincides with the chain bound. -/
theorem allocScan_chained (total sizeR id : Nat) :
    ∀ (l : Slots) (lo : Nat) (prev : Option Nat) (l' : Slots) (r : Option Nat),
      Chained lo l → (∀ s, prev = some s → s = lo) →
      allocScan total sizeR id prev l = .ok (l', r) → Chained lo l'
  | [], lo, prev, l', r, hch, _, heq => by
    rw [allocScan] at heq
    simp only [Except.ok.injEq, Prod.mk.injEq] at heq
    rw [← heq.1]
    trivial
  | none :: rest, lo, none, l', r, hch, _, heq => by
    rw [allocScan] at heq
    exact Except.noConfusion heq
  | none :: rest, lo, some start, l', r, hch, hprev, heq => by
    have hst : start = (0 : Nat) + start := (Nat.zero_add start).symm
    have hlo : start = _ := hprev start rfl
    rw [allocScan] at heq
    by_cases hfit : start + sizeR ≤ nextBound total rest
    · rw [if_pos hfit] at heq
      simp only [Except.ok.injEq, Prod.mk.injEq] at heq
      rw [← heq.1]
      rw [chained_cons_none] at hch
      rw [chained_cons_some]
      exact ⟨Nat.le_of_eq hlo.symm,
        chained_of_le_nextBound rest (chained_mono rest (Nat.le_of_eq hlo) hch) hfit⟩
    · rw [if_neg hfit] at heq
      cases hrec : allocScan total sizeR id none rest with
      | error e => rw [hrec] at heq; exact Except.noConfusion heq
      | ok p =>
        rw [hrec] at heq
        simp only [Except.ok.injEq, Prod.mk.injEq] at heq
        rw [← heq.1]
        rw [chained_cons_none] at hch
        rw [chained_cons_none]
        exact allocScan_chained total sizeR id rest lo none p.1 p.2 hch
          (fun s hs => Option.noConfusion hs) (by rw [hrec])
  | some o :: rest, lo, prev, l', r, hch, hprev, heq => by
    rw [allocScan] at heq
    cases hrec : allocScan total sizeR id (some (o.offset + o.size)) rest with
    | error e => rw [hrec] at heq; exact Except.noConfusion heq
    | ok p =>
      rw [hrec] at heq
      simp only [Except.ok.injEq, Prod.mk.injEq] at heq
      rw [← heq.1]
      rw [chained_cons_some] at hch
      rw [chained_cons_some]
      exact ⟨hch.1, allocScan_chained total sizeR id rest (o.offset + o.size)
        (some (o.offset + o.size)) p.1 p.2 hch.2
        (fun s hs => (Option.some.inj hs).symm) (by rw [hrec])⟩

theorem deallocWalk_chained (id : Nat) :
    ∀ (l : Slots) (acc lo : Nat), Chained lo l → Chained lo (deallocWalk id l acc).1
  | [], _, _, _ => trivial
  | some o :: rest, acc, lo, hch => by
    rw [chained_cons_some] at hch
    rw [deallocWalk]
    by_cases h : o.id = id
    · rw [if_pos h]
      rw [chained_cons_none]
      exact chained_mono _ (by omega) (deallocWalk_chained id rest (acc - o.size) _ hch.2)
    · rw [if_neg h]
      rw [chained_cons_some]
      exact ⟨hch.1, deallocWalk_chained id rest acc _ hch.2⟩
  | none :: rest, acc, lo, hch => by
    rw [chained_cons_none] at hch
    rw [deallocWalk, chained_cons_none]
    exact deallocWalk_chained id rest acc lo hch

theorem deallocWalk_ids_sublist (id : Nat) :
    ∀ (l : Slots) (acc : Nat), (idsOf (deallocWalk id l acc).1).Sublist (idsOf l)
  | [], _ => List.Sublist.refl _
  | some o :: rest, acc => by
    rw [deallocWalk]
    by_cases h : o.id = id
    · rw [if_pos h]
      exact List.Sublist.cons _ (deallocWalk_ids_sublist id rest (acc - o.size))
    · rw [if_neg h]
      exact List.Sublist.cons₂ _ (deallocWalk_ids_sublist id rest acc)
  | none :: rest, acc => by
    rw [deallocWalk]
    exact deallocWalk_ids_sublist id rest acc

/-- The walk frees a total `f` of entry sizes: the index loses exactly `f`
and the accumulator drops by `f` (truncated at zero, which equality with the
size sum rules out). -/
theorem deallocWalk_sum (id : Nat) :
    ∀ (l : Slots) (acc : Nat), ∃ f,
      sumSizes l = sumSizes (deallocWalk id l acc).1 + f ∧
      (deallocWalk id l acc).2 = acc - f
  | [], acc => ⟨0, rfl, rfl⟩
  | some o :: rest, acc => by
    rw [deallocWalk]
    by_cases h : o.id = id
    · rw [if_pos h]
      obtain ⟨f, h1, h2⟩ := deallocWalk_sum id rest (acc - o.size)
      refine ⟨o.size + f, ?_, ?_⟩
      · simp only [sumSizes]
        omega
      · rw [h2, Nat.sub_sub]
    · rw [if_neg h]
      obtain ⟨f, h1, h2⟩ := deallocWalk_sum id rest acc
      exact ⟨f, by simp only [sumSizes]; omega, h2⟩
  | none :: rest, acc => by
    rw [deallocWalk]
    obtain ⟨f, h1, h2⟩ := deallocWalk_sum id rest acc
    exact ⟨f, by simp only [sumSizes]; omega, h2⟩

/-! ### Positional consequences of the invariant -/

theorem chained_get?_ge : ∀ (l : Slots) (lo j : Nat) (o : ObjectInfo),
    Chained lo l → l.get? j = some (some o) → lo ≤ o.offset
  | [], _, j, _, _, h => by cases j <;> exact Option.noConfusion h
  | none :: rest, lo, j, o, hch, h => by
    cases j with
    | zero => exact Option.noConfusion (Option.some.inj h)
    | succ j => exact chained_get?_ge rest lo j o hch h
  | some e :: rest, lo, j, o, hch, h => by
    cases j with
    | zero =>
      injection h with h1
      injection h1 with h2
      rw [← h2]
      exact hch.1
    | succ j =>
      have h1 := (chained_cons_some lo e rest).mp hch
      have hr := chained_get?_ge rest (e.offset + e.size) j o h1.2 h
      have := h1.1
      omega

theorem chained_disjoint : ∀ (l : Slots) (lo i j : Nat) (oi oj : ObjectInfo),
    Chained lo l → i < j → l.get? i = some (some oi) → l.get? j = some (some oj) →
    oi.offset + oi.size ≤ oj.offset
  | [], _, i, _, _, _, _, _, hi, _ => by cases i <;> exact Option.noConfusion hi
  | none :: rest, lo, i, j, oi, oj, hch, hij, hi, hj => by
    cases i with
    | zero => exact Option.noConfusion (Option.some.inj hi)
    | succ i =>
      cases j with
      | zero => omega
      | succ j => exact chained_disjoint rest lo i j oi oj hch (by omega) hi hj
  | some e :: rest, lo, i, j, oi, oj, hch, hij, hi, hj => by
    have h1 := (chained_cons_some lo e rest).mp hch
    cases i with
    | zero =>
      injection hi with hi1
      injection hi1 with hi2
      cases j with
      | zero => omega
      | succ j =>
        rw [← hi2]
        exact chained_get?_ge rest (e.offset + e.size) j oj h1.2 hj
    | succ i =>
      cases j with
      | zero => omega
      | succ j => exact chained_disjoint rest (e.offset + e.size) i j oi oj h1.2 (by omega) hi hj

theorem idsOf_get?_mem : ∀ (l : Slots) (j : Nat) (o : ObjectInfo),
    l.get? j = some (some o) → o.id ∈ idsOf l
  | [], j, _, h => by cases j <;> exact Option.noConfusion h
  | none :: rest, j, o, h => by
    cases j with
    | zero => exact Option.noConfusion (Option.some.inj h)
    | succ j => exact idsOf_get?_mem rest j o h
  | some e :: rest, j, o, h => by
    cases j with
    | zero =>
      injection h with h1
      injection h1 with h2
      rw [← h2, idsOf]
      exact List.mem_cons_self _ _
    | succ j =>
      rw [idsOf]
      exact List.mem_cons_of_mem _ (idsOf_get?_mem rest j o h)

theorem nodup_ids_ne : ∀ (l : Slots) (i j : Nat) (oi oj : ObjectInfo),
    (idsOf l).Nodup → i < j → l.get? i = some (some oi) → l.get? j = some (some oj) →
    oi.id ≠ oj.id
  | [], i, _, _, _, _, _, hi, _ => by cases i <;> exact Option.noConfusion hi
  | none :: rest, i, j, oi, oj, hnd, hij, hi, hj => by
    cases i with
    | zero => exact Option.noConfusion (Option.some.inj hi)
    | succ i =>
      cases j with
      | zero => omega
      | succ j => exact nodup_ids_ne rest i j oi oj (by rwa [idsOf] at hnd) (by omega) hi hj
  | some e :: rest, i, j, oi, oj, hnd, hij, hi, hj => by
    rw [idsOf, List.nodup_cons] at hnd
    cases i with
    | zero =>
      injection hi with hi1
      injection hi1 with hi2
      cases j with
      | zero => omega
      | succ j =>
        rw [← hi2]
        intro hcontra
        exact hnd.1 (hcontra ▸ idsOf_get?_mem rest j oj hj)
    | succ i =>
      cases j with
      | zero => omega
      | succ j => exact nodup_ids_ne rest i j oi oj hnd.2 (by omega) hi hj

/-! ### Well-formedness and its preservation -/

/-- The allocator invariant of claim C6, strengthened to slot order. -/
structure AllocWF (a : Allocator) : Prop where
  chained : Chained 0 a.object_index
  nodup : (idsOf a.object_index).Nodup
  sum : a.allocated_size = sumSizes a.object_index

theorem chained_replicate_none (lo : Nat) : ∀ n, Chained lo (List.replicate n none)
  | 0 => trivial
  | n + 1 => by
    rw [List.replicate_succ, chained_cons_none]
    exact chained_replicate_none lo n

theorem idsOf_replicate_none : ∀ n, idsOf (List.replicate n none) = []
  | 0 => rfl
  | n + 1 => by
    rw [List.replicate_succ, idsOf]
    exact idsOf_replicate_none n

theorem sumSizes_replicate_none : ∀ n, sumSizes (List.replicate n none) = 0
  | 0 => rfl
  | n + 1 => by
    rw [List.replicate_succ, sumSizes]
    exact sumSizes_replicate_none n

theorem allocWF_new (total chunk : Nat) : AllocWF (Allocator.new total chunk) :=
  ⟨chained_replicate_none 0 MAX_OBJECTS,
   by rw [Allocator.new, idsOf_replicate_none]; exact List.nodup_nil,
   by rw [Allocator.new, sumSizes_replicate_none]⟩

theorem allocWF_alloc {a a' : Allocator} {id size : Nat} {off : Option Nat}
    (hwf : AllocWF a) (h : a.alloc_object id size = .ok (a', off)) : AllocWF a' := by
  rw [Allocator.alloc_object] at h
  by_cases hch0 : a.chunk_size = 0
  · rw [if_pos hch0] at h
    exact Except.noConfusion h
  rw [if_neg hch0] at h
  set sizeR := ((size + a.chunk_size - 1) / a.chunk_size) * a.chunk_size with hsizeR
  by_cases hspace : a.total_size < a.allocated_size + sizeR
  · rw [if_pos hspace] at h
    cases h
    exact hwf
  rw [if_neg hspace] at h
  by_cases hdup : (a.lookup_object id).isSome
  · rw [if_pos hdup] at h
    cases h
    exact hwf
  rw [if_neg hdup] at h
  cases hscan : allocScan a.total_size sizeR id (some 0) a.object_index with
  | error e => rw [hscan] at h; exact Except.noConfusion h
  | ok p =>
    rw [hscan] at h
    match p, hscan with
    | (idx', none), hscan =>
      simp only at h
      cases h
      exact hwf
    | (idx', some start), hscan =>
      simp only at h
      cases h
      obtain ⟨pre, post, hl, hl'⟩ :=
        allocScan_shape a.total_size sizeR id a.object_index (some 0) idx' start hscan
      have hid_notmem : id ∉ idsOf a.object_index := by
        rw [← findSlot_eq_none_iff]
        rw [Allocator.lookup_object] at hdup
        exact Option.not_isSome_iff_eq_none.mp hdup
      constructor
      · exact allocScan_chained a.total_size sizeR id a.object_index 0 (some 0) idx'
          (some start) hwf.chained (fun s hs => (Option.some.inj hs).symm) hscan
      · show (idsOf idx').Nodup
        rw [hl', idsOf_append, idsOf]
        rw [hl, idsOf_append, idsOf] at hid_notmem
        have hnd : (idsOf pre ++ idsOf post).Nodup := by
          have := hwf.nodup
          rw [hl, idsOf_append, idsOf] at this
          exact this
        exact List.nodup_middle.mpr (List.nodup_cons.mpr ⟨hid_notmem, hnd⟩)
      · show a.allocated_size + sizeR = sumSizes idx'
        rw [hl', sumSizes_append, sumSizes]
        have hentry : (⟨id, start, sizeR⟩ : ObjectInfo).size = sizeR := rfl
        rw [hentry]
        have hsum := hwf.sum
        rw [hl, sumSizes_append, sumSizes] at hsum
        omega

theorem allocWF_dealloc {a : Allocator} (id : Nat) (hwf : AllocWF a) :
    AllocWF (a.dealloc_object id) := by
  rw [Allocator.dealloc_object]
  constructor
  · exact deallocWalk_chained id a.object_index a.allocated_size 0 hwf.chained
  · exact (deallocWalk_ids_sublist id a.object_index a.allocated_size).nodup hwf.nodup
  · show (deallocWalk id a.object_index a.allocated_size).2 =
      sumSizes (deallocWalk id a.object_index a.allocated_size).1
    obtain ⟨f, h1, h2⟩ := deallocWalk_sum id a.object_index a.allocated_size
    have hs := hwf.sum
    rw [h2]
    omega

/-- Allocator states reachable from `Allocator::new` through any sequence of
`alloc_object` / `dealloc_object` calls (a panicking `alloc_object` produces
no successor state). -/
inductive Allocator.Reachable (total chunk : Nat) : Allocator → Prop
  | base : Allocator.Reachable total chunk (Allocator.new total chunk)
  | alloc {a a' : Allocator} {id size : Nat} {off : Option Nat} :
      Allocator.Reachable total chunk a → a.alloc_object id size = .ok (a', off) →
      Allocator.Reachable total chunk a'
  | dealloc {a : Allocator} {id : Nat} :
      Allocator.Reachable total chunk a →
      Allocator.Reachable total chunk (a.dealloc_object id)

theorem reachable_allocWF {total chunk : Nat} {a : Allocator}
    (h : Allocator.Reachable total chunk a) : AllocWF a := by
  induction h with
  | base => exact allocWF_new total chunk
  | alloc _ heq ih => exact allocWF_alloc ih heq
  | dealloc _ ih => exact allocWF_dealloc _ ih

/-- C6 (confirmed): in every allocator state reachable from `Allocator::new`
by `alloc_object` / `dealloc_object` calls, any two allocated entries with
`a.offset < b.offset` satisfy `a.offset + a.size ≤ b.offset`, no two
allocated entries share an id, and `allocated_size` is the sum of the
allocated entries' sizes. -/
theorem claim_C6 (total chunk : Nat) (a : Allocator)
    (h : Allocator.Reachable total chunk a) :
    (∀ i j oi oj, a.object_index.get? i = some (some oi) →
      a.object_index.get? j = some (some oj) →
      oi.offset < oj.offset → oi.offset + oi.size ≤ oj.offset) ∧
    (∀ i j oi oj, i ≠ j → a.object_index.get? i = some (some oi) →
      a.object_index.get? j = some (some oj) → oi.id ≠ oj.id) ∧
    a.allocated_size = sumSizes a.object_index := by
  have hwf := reachable_allocWF h
  refine ⟨?_, ?_, hwf.sum⟩
  · intro i j oi oj hi hj hlt
    rcases Nat.lt_trichotomy i j with hij | hij | hij
    · exact chained_disjoint a.object_index 0 i j oi oj hwf.chained hij hi hj
    · subst hij
      rw [hi] at hj
      injection hj with hj1
      injection hj1 with hj2
      subst hj2
      omega
    · have := chained_disjoint a.object_index 0 j i oj oi hwf.chained hij hj hi
      omega
  · intro i j oi oj hne hi hj
    rcases Nat.lt_trichotomy i j with hij | hij | hij
    · exact nodup_ids_ne a.object_index i j oi oj hwf.nodup hij hi hj
    · exact absurd hij hne
    · exact (nodup_ids_ne a.object_index j i oj oi hwf.nodup hij hj hi).symm

/-- C6 witness: the state reached by allocating one 1-byte object with id 1
in a 4-byte, chunk-1 allocator satisfies the size-sum equation (via the full
invariant theorem applied to an explicit reachability derivation). -/
theorem claim_C6_witness :
    (Allocator.mk 4 1 1 (some ⟨1, 0, 1⟩ :: List.replicate 31 none)).allocated_size =
      sumSizes (Allocator.mk 4 1 1 (some ⟨1, 0, 1⟩ :: List.replicate 31 none)).object_index :=
  (claim_C6 4 1 (Allocator.mk 4 1 1 (some ⟨1, 0, 1⟩ :: List.replicate 31 none))
    (@Allocator.Reachable.alloc 4 1 (Allocator.new 4 1)
      (Allocator.mk 4 1 1 (some ⟨1, 0, 1⟩ :: List.replicate 31 none)) 1 1 (some 0)
      Allocator.Reachable.base (by rfl))).2.2

end RepCXL
